import Mathlib

/-!
Shallow embedding of the chunked deque implementation in `src/main.rs`
(`Chunk<T, N>`, `ChunkList<T, N>`, the borrowing iterator `Iter`), plus
theorems settling the specification claims about it.

Modelling conventions:
* The const generic capacity `N : usize` is passed as an explicit `Nat`
  argument to every operation that reads it.
* `Vec<T>` and `VecDeque<Chunk>` are both modelled as `List`, front at the
  head; `VecDeque::push_back`/`back_mut` work on the last list element.
* A Rust `panic!` (including the index panic in `Chunk::get`/`Chunk::remove`
  and `usize` subtraction overflow, which panics in debug builds; in release
  builds the wrapped difference is fed into the chunk index check, which
  panics as well for every state the container can actually hold) is
  modelled by an outer `Option`: `none` is a fatal fault, `some` a normal
  return.  Rust's `Option<T>` results live in the inner `Option T`.
-/

/-- Checked `usize` subtraction: `a - b`, fatal fault on underflow. -/
def csub (a b : Nat) : Option Nat :=
  if b ≤ a then some (a - b) else none

/-- `Vec::rotate_right(1)`: the last element moves to the front. -/
def rotateRight1 {T : Type} (l : List T) : List T :=
  match l.reverse with
  | [] => []
  | x :: rest => x :: rest.reverse

/-- `Chunk<T, N>`: a capacity-bounded vector of elements. -/
structure Chunk (T : Type) where
  elements : List T
deriving DecidableEq, Repr

namespace Chunk

/-- `Chunk::len`. -/
def len {T : Type} (c : Chunk T) : Nat := c.elements.length

/-- `Chunk::is_empty`. -/
def is_empty {T : Type} (c : Chunk T) : Bool := c.len == 0

/-- `Chunk::is_full`. -/
def is_full {T : Type} (N : Nat) (c : Chunk T) : Bool := c.len == N

/-- `Chunk::push_back`: returns `false` (and leaves the chunk unchanged)
on overflow, otherwise appends. -/
def push_back {T : Type} (N : Nat) (v : T) (c : Chunk T) : Bool × Chunk T :=
  if is_full N c then (false, c)
  else (true, ⟨c.elements ++ [v]⟩)

/-- `Chunk::push_front`: push then `rotate_right(1)`. -/
def push_front {T : Type} (N : Nat) (v : T) (c : Chunk T) : Bool × Chunk T :=
  if is_full N c then (false, c)
  else (true, ⟨rotateRight1 (c.elements ++ [v])⟩)

/-- `Chunk::pop_back` (`Vec::pop`). -/
def pop_back {T : Type} (c : Chunk T) : Option T × Chunk T :=
  match c.elements.getLast? with
  | none => (none, c)
  | some v => (some v, ⟨c.elements.dropLast⟩)

/-- `Chunk::get`: fatal fault (outer `none`) when `i ≥ N`, otherwise the
element at `i` if present. -/
def get {T : Type} (N i : Nat) (c : Chunk T) : Option (Option T) :=
  if N ≤ i then none
  else some c.elements[i]?

/-- `Chunk::remove`: fatal fault when `i ≥ N`; "no element" when
`len ≤ i < N`; otherwise removes and returns the element at `i`. -/
def remove {T : Type} (N i : Nat) (c : Chunk T) : Option (Option T × Chunk T) :=
  if N ≤ i then none
  else if c.len ≤ i then some (none, c)
  else some (c.elements[i]?, ⟨c.elements.eraseIdx i⟩)

/-- `Chunk::pop_front` is `Chunk::remove(0)`. -/
def pop_front {T : Type} (N : Nat) (c : Chunk T) : Option (Option T × Chunk T) :=
  remove N 0 c

end Chunk

/-- `ChunkList<T, N>`: a deque of chunks plus a cached element count. -/
structure ChunkList (T : Type) where
  chunks : List (Chunk T)
  elements_count : Nat
deriving DecidableEq, Repr

namespace ChunkList

/-- `ChunkList::new`: fatal fault when `N < 1`, otherwise the empty state. -/
def new (T : Type) (N : Nat) : Option (ChunkList T) :=
  if N < 1 then none else some ⟨[], 0⟩

/-- The state a successful `ChunkList::new()` produces. -/
def empty (T : Type) : ChunkList T := ⟨[], 0⟩

/-- `ChunkList::chunks_count`. -/
def chunks_count {T : Type} (s : ChunkList T) : Nat := s.chunks.length

/-- `ChunkList::push_back`: reuse the back chunk unless it is absent or
full, in which case a fresh back chunk receives the value. -/
def push_back {T : Type} (N : Nat) (v : T) (s : ChunkList T) : ChunkList T :=
  match s.chunks.getLast? with
  | none =>
    -- `add_new_chunk_back` produced an empty chunk; the code then re-checks
    -- fullness on it (it only matters for the degenerate `N = 0`).
    if Chunk.is_full N (⟨[]⟩ : Chunk T) then
      ⟨(s.chunks ++ [⟨[]⟩]) ++ [(Chunk.push_back N v ⟨[]⟩).2], s.elements_count + 1⟩
    else
      ⟨s.chunks ++ [(Chunk.push_back N v ⟨[]⟩).2], s.elements_count + 1⟩
  | some back =>
    if Chunk.is_full N back then
      ⟨s.chunks ++ [(Chunk.push_back N v ⟨[]⟩).2], s.elements_count + 1⟩
    else
      ⟨s.chunks.dropLast ++ [(Chunk.push_back N v back).2], s.elements_count + 1⟩

/-- `ChunkList::push_front`: symmetric to `push_back` at the front. -/
def push_front {T : Type} (N : Nat) (v : T) (s : ChunkList T) : ChunkList T :=
  match s.chunks with
  | [] => ⟨[(Chunk.push_front N v ⟨[]⟩).2], s.elements_count + 1⟩
  | front :: rest =>
    if Chunk.is_full N front then
      ⟨(Chunk.push_front N v ⟨[]⟩).2 :: front :: rest, s.elements_count + 1⟩
    else
      ⟨(Chunk.push_front N v front).2 :: rest, s.elements_count + 1⟩

/-- `ChunkList::pop_back`: `None` with no chunks; otherwise pops the back
chunk (`unwrap`: fatal fault if that chunk is empty), drops the chunk if it
became empty, and decrements the count. -/
def pop_back {T : Type} (s : ChunkList T) : Option (Option T × ChunkList T) :=
  match s.chunks.getLast? with
  | none => some (none, s)
  | some back =>
    match Chunk.pop_back back with
    | (none, _) => none
    | (some v, back2) =>
      let chunks1 := s.chunks.dropLast ++ [back2]
      let chunks2 := if back2.len = 0 then chunks1.dropLast else chunks1
      match csub s.elements_count 1 with
      | none => none
      | some ec => some (some v, ⟨chunks2, ec⟩)

/-- The chunk-locating loop of `ChunkList::remove`: starting from
`(chunk_i, count)`, walk the remaining chunks while
`count + chunk.len() < i`, accumulating lengths; return the final
`(chunk_i, count)`. -/
def removeScan {T : Type} (i : Nat) : List (Chunk T) → Nat → Nat → Nat × Nat
  | [], ci, cnt => (ci, cnt)
  | c :: rest, ci, cnt =>
    if i ≤ cnt + c.len then (ci, cnt)
    else removeScan i rest (ci + 1) (cnt + c.len)

/-- `ChunkList::remove`: scan for the owning chunk, compute the local
offset as `count - i` (as written in the source), delegate to
`Chunk::remove`, drop the chunk if it became empty (erasing at index `i`,
as written in the source), and decrement the count. -/
def remove {T : Type} (N i : Nat) (s : ChunkList T) : Option (Option T × ChunkList T) :=
  let p := removeScan i s.chunks 0 0
  match s.chunks[p.1]? with
  | none => some (none, s)
  | some chunk =>
    match csub p.2 i with
    | none => none
    | some ei =>
      match Chunk.remove N ei chunk with
      | none => none
      | some q =>
        let chunks1 := s.chunks.set p.1 q.2
        let chunks2 := if q.2.len = 0 then chunks1.eraseIdx i else chunks1
        match csub s.elements_count 1 with
        | none => none
        | some ec => some (q.1, ⟨chunks2, ec⟩)

/-- `ChunkList::pop_front` is `ChunkList::remove(0)`. -/
def pop_front {T : Type} (N : Nat) (s : ChunkList T) : Option (Option T × ChunkList T) :=
  remove N 0 s

/-- `ChunkList::clear`: drops all chunks.  The cached `elements_count` is
left as-is, exactly as in the source. -/
def clear {T : Type} (s : ChunkList T) : ChunkList T :=
  ⟨[], s.elements_count⟩

end ChunkList

/-- One step of the borrowing iterator `Iter::next`, structurally recursing
over the suffix of chunks that starts at `chunk_i` (the Rust code reads
`chunks.get(chunk_i)`, which is the head of that suffix, and recurses with
`chunk_i + 1`).  Arguments: the suffix, then the absolute `chunk_i` and
`element_i`.  Result: fatal fault, or the yielded value with the iterator
state after the call. -/
def iterNextAux {T : Type} (N : Nat) : List (Chunk T) → Nat → Nat → Option (Option T × Nat × Nat)
  | [], ci, ei => some (none, ci, ei)
  | chunk :: rest, ci, ei =>
    match Chunk.get N ei chunk with
    | none => none
    | some (some v) =>
      if chunk.len ≤ ei + 1 then some (some v, ci + 1, 0)
      else some (some v, ci, ei + 1)
    | some none =>
      -- the source sets `chunk_i += 1; element_i = 0` and recurses, then
      -- still runs the post-match index bookkeeping of the outer call
      -- against the old chunk's length
      match iterNextAux N rest (ci + 1) 0 with
      | none => none
      | some (v, ci2, ei2) =>
        if chunk.len ≤ ei2 + 1 then some (v, ci2 + 1, 0)
        else some (v, ci2, ei2 + 1)

/-- `Iter::next` on a full chunk list, from iterator state
`(chunk_i, element_i)`. -/
def iterNext {T : Type} (N : Nat) (chunks : List (Chunk T)) (ci ei : Nat) :
    Option (Option T × Nat × Nat) :=
  iterNextAux N (chunks.drop ci) ci ei

/-- `Iterator::nth` on the borrowing iterator: advance `n` values and
return the next one ("no element" as soon as the iterator is exhausted). -/
def iterNth {T : Type} (N : Nat) (chunks : List (Chunk T)) : Nat → Nat → Nat → Option (Option T)
  | ci, ei, 0 =>
    match iterNext N chunks ci ei with
    | none => none
    | some (none, _, _) => some none
    | some (some v, _, _) => some (some v)
  | ci, ei, m + 1 =>
    match iterNext N chunks ci ei with
    | none => none
    | some (none, _, _) => some none
    | some (some _, ci2, ei2) => iterNth N chunks ci2 ei2 m

/-- `ChunkList::get`: `self.iter().nth(i)` from the initial iterator
state. -/
def ChunkList.get {T : Type} (N i : Nat) (s : ChunkList T) : Option (Option T) :=
  iterNth N s.chunks 0 0 i

/-- Sum of the lengths of a chunk sequence. -/
def sumLens {T : Type} (cs : List (Chunk T)) : Nat :=
  (cs.map Chunk.len).sum

/-- The flattened element sequence of a chunk list, front to back. -/
def flatElems {T : Type} : List (Chunk T) → List T
  | [] => []
  | c :: rest => c.elements ++ flatElems rest

/-- The spec's structural invariant on the chunk sequence: every chunk
holds between 1 and `N` elements. -/
@[reducible]
def WFchunks {T : Type} (N : Nat) (cs : List (Chunk T)) : Prop :=
  ∀ c ∈ cs, 1 ≤ c.len ∧ c.len ≤ N

/-- States reachable from a successful `new()` through completed (that is,
non-faulting) public operations: `push_front`, `push_back`, `pop_back`,
`remove` (which subsumes `pop_front = remove(0)`), and `clear`. -/
inductive Reachable {T : Type} (N : Nat) : ChunkList T → Prop
  | init : 1 ≤ N → Reachable N (ChunkList.empty T)
  | push_back (v : T) {s : ChunkList T} :
      Reachable N s → Reachable N (ChunkList.push_back N v s)
  | push_front (v : T) {s : ChunkList T} :
      Reachable N s → Reachable N (ChunkList.push_front N v s)
  | pop_back {s s2 : ChunkList T} {v : Option T} :
      Reachable N s → ChunkList.pop_back s = some (v, s2) → Reachable N s2
  | rm (i : Nat) {s s2 : ChunkList T} {v : Option T} :
      Reachable N s → ChunkList.remove N i s = some (v, s2) → Reachable N s2
  | clear {s : ChunkList T} :
      Reachable N s → Reachable N (ChunkList.clear s)

/-- The aggregate invariant actually maintained by the code: the chunk
sequence is well formed and the cached count is at least the stored total
(`clear` can leave it strictly larger). -/
def CLinv {T : Type} (N : Nat) (s : ChunkList T) : Prop :=
  WFchunks N s.chunks ∧ sumLens s.chunks ≤ s.elements_count

/-- Push a whole list of values with `push_front`, first element first. -/
def pushFrontAll {T : Type} (N : Nat) : List T → ChunkList T → ChunkList T
  | [], s => s
  | v :: rest, s => pushFrontAll N rest (ChunkList.push_front N v s)

/-- Push a whole list of values with `push_back`, first element first. -/
def pushBackAll {T : Type} (N : Nat) : List T → ChunkList T → ChunkList T
  | [], s => s
  | v :: rest, s => pushBackAll N rest (ChunkList.push_back N v s)

/-- Run `pop_front` `n` times, collecting each reported result in order;
fatal fault if any call faults. -/
def popFrontMany {T : Type} (N : Nat) : Nat → ChunkList T → Option (List (Option T) × ChunkList T)
  | 0, s => some ([], s)
  | n + 1, s =>
    match popFrontMany N n s with
    | none => none
    | some (vs, s1) =>
      match ChunkList.pop_front N s1 with
      | none => none
      | some (v, s2) => some (vs ++ [v], s2)

/-- Run `pop_back` `n` times, collecting each reported result in order;
fatal fault if any call faults. -/
def popBackMany {T : Type} : Nat → ChunkList T → Option (List (Option T) × ChunkList T)
  | 0, s => some ([], s)
  | n + 1, s =>
    match popBackMany n s with
    | none => none
    | some (vs, s1) =>
      match ChunkList.pop_back s1 with
      | none => none
      | some (v, s2) => some (vs ++ [v], s2)

-- Sanity checks mirroring the unit tests in the source (`N = 2`).
example :
    (ChunkList.push_front 2 3 (ChunkList.push_front 2 2
      (ChunkList.push_front 2 1 (ChunkList.empty Nat)))).chunks
      = [⟨[3]⟩, ⟨[2, 1]⟩] := by decide

example :
    ChunkList.pop_front 2 (ChunkList.push_front 2 3 (ChunkList.push_front 2 2
      (ChunkList.push_front 2 1 (ChunkList.empty Nat))))
      = some (some 3, ⟨[⟨[2, 1]⟩], 2⟩) := by decide

example :
    ChunkList.get 2 0 (ChunkList.push_front 2 1 (ChunkList.push_front 2 2
      (ChunkList.push_front 2 3 (ChunkList.empty Nat))))
      = some (some 1) := by decide

example :
    ChunkList.pop_back (ChunkList.push_front 2 1 (ChunkList.empty Nat))
      = some (some 1, ChunkList.empty Nat) := by decide

example :
    popFrontMany 2 4 (pushFrontAll 2 [1, 2, 3] (ChunkList.empty Nat))
      = some ([some 3, some 2, some 1, none], ChunkList.empty Nat) := by decide

/-! ## Small rewriting lemmas about the embedded operations -/

theorem sumLens_nil {T : Type} : sumLens ([] : List (Chunk T)) = 0 := rfl

theorem sumLens_cons {T : Type} (c : Chunk T) (cs : List (Chunk T)) :
    sumLens (c :: cs) = c.len + sumLens cs := by
  simp [sumLens]

theorem sumLens_append {T : Type} (cs ds : List (Chunk T)) :
    sumLens (cs ++ ds) = sumLens cs + sumLens ds := by
  simp [sumLens]

theorem rotateRight1_concat {T : Type} (l : List T) (v : T) :
    rotateRight1 (l ++ [v]) = v :: l := by
  simp [rotateRight1]

/-- `removeScan` with target index `0` stops at the first chunk. -/
theorem removeScan_zero {T : Type} (cs : List (Chunk T)) (ci cnt : Nat) :
    ChunkList.removeScan 0 cs ci cnt = (ci, cnt) := by
  cases cs with
  | nil => rfl
  | cons c rest => simp [ChunkList.removeScan]

/-- The running total returned by `removeScan` stays strictly below the
target index if it starts there. -/
theorem removeScan_lt {T : Type} (i : Nat) (cs : List (Chunk T)) :
    ∀ ci cnt, cnt < i → (ChunkList.removeScan i cs ci cnt).2 < i := by
  induction cs with
  | nil => intro ci cnt h; simpa [ChunkList.removeScan] using h
  | cons c rest ih =>
    intro ci cnt h
    by_cases hb : i ≤ cnt + c.len
    · simpa [ChunkList.removeScan, hb] using h
    · simp only [ChunkList.removeScan, if_neg hb]
      exact ih (ci + 1) (cnt + c.len) (Nat.lt_of_not_le hb)

/-! ## Concrete evaluations settling the defect claims -/

/-- C1: refuted by the code.  On the deque `[1, 2, 3]` with `N = 2`
(chunks `[1, 2]` and `[3]`, so `elements_count = 3`), `remove(1)` should
remove and return the element `2` at local offset `1 - 0`; instead the
source computes the local offset as `count - i = 0 - 1`, which is a fatal
fault (`usize` underflow, and in release builds the wrapped offset trips
the `i >= N` panic inside `Chunk::remove`). -/
theorem remove_offset_reversed_fault :
    (pushBackAll 2 [1, 2, 3] (ChunkList.empty Nat)).chunks = [⟨[1, 2]⟩, ⟨[3]⟩]
      ∧ (pushBackAll 2 [1, 2, 3] (ChunkList.empty Nat)).elements_count = 3
      ∧ ChunkList.remove 2 1 (pushBackAll 2 [1, 2, 3] (ChunkList.empty Nat)) = none := by
  decide

/-- C2: refuted by the code.  After `push_back(1)` and then `clear()` on a
`ChunkList<i32, 2>`, `chunks_count()` is `0` and `get(0)` reports "no
element", but `elements_count()` is still `1`: `clear` never resets the
cached count. -/
theorem clear_leaves_stale_count :
    ChunkList.chunks_count (ChunkList.clear (ChunkList.push_back 2 1 (ChunkList.empty Nat))) = 0
      ∧ ChunkList.get 2 0 (ChunkList.clear (ChunkList.push_back 2 1 (ChunkList.empty Nat)))
          = some none
      ∧ (ChunkList.clear (ChunkList.push_back 2 1 (ChunkList.empty Nat))).elements_count = 1 := by
  decide

/-- C3: refuted by the code.  After the public operation sequence
`push_back(1); clear()`, the cached count is `1` while the chunk lengths
sum to `0`, so the aggregate invariant does not hold after `clear`. -/
theorem clear_breaks_count_invariant :
    (ChunkList.clear (ChunkList.push_back 2 1 (ChunkList.empty Nat))).elements_count = 1
      ∧ sumLens (ChunkList.clear (ChunkList.push_back 2 1 (ChunkList.empty Nat))).chunks = 0 := by
  decide

/-- C5: refuted by the code.  On a one-element deque (`N = 2`,
`elements_count() = 1`), the out-of-range call `remove(1)` is a fatal
fault instead of reporting "no element": the scan stops at the first chunk
with running total `0` and the source computes the offset `0 - 1`. -/
theorem remove_at_count_fault :
    (ChunkList.push_back 2 1 (ChunkList.empty Nat)).elements_count = 1
      ∧ ChunkList.remove 2 1 (ChunkList.push_back 2 1 (ChunkList.empty Nat)) = none := by
  decide

/-- C7: refuted by the code.  The interface has a fatal fault beyond the
chunk-index and `N = 0` contract violations: the in-range call `remove(1)`
on the deque `[1, 2]` with `N = 3` faults (offset computed as `0 - 1`),
even though every chunk index the caller supplied is below `N`. -/
theorem interface_extra_fatal_fault :
    (pushBackAll 3 [1, 2] (ChunkList.empty Nat)).elements_count = 2
      ∧ ChunkList.remove 3 1 (pushBackAll 3 [1, 2] (ChunkList.empty Nat)) = none := by
  decide

/-- C9 counterexample: after `push_back(1); clear()` the cached count is
still positive, yet `get(0)` reports "no element" and borrowing iteration
yields no value at position `0` at all, so `get(i)` for
`0 ≤ i < elements_count()` does not return an i-th iteration value. -/
theorem get_stale_count_counterexample :
    0 < (ChunkList.clear (ChunkList.push_back 2 1 (ChunkList.empty Nat))).elements_count
      ∧ ChunkList.get 2 0 (ChunkList.clear (ChunkList.push_back 2 1 (ChunkList.empty Nat)))
          = some none
      ∧ iterNth 2 (ChunkList.clear (ChunkList.push_back 2 1 (ChunkList.empty Nat))).chunks 0 0 0
          = some none := by
  decide

/-! ## Preservation of the aggregate invariant by every completed operation -/

theorem inv_empty {T : Type} (N : Nat) : CLinv N (ChunkList.empty T) := by
  constructor
  · intro c hc; simp [ChunkList.empty] at hc
  · simp [ChunkList.empty, sumLens]

theorem sumLens_concat {T : Type} (cs : List (Chunk T)) (c : Chunk T) :
    sumLens (cs ++ [c]) = sumLens cs + c.len := by
  rw [sumLens_append, sumLens_cons, sumLens_nil]; omega

theorem chunk_is_full_empty {T : Type} {N : Nat} (hN : 1 ≤ N) :
    Chunk.is_full N (⟨[]⟩ : Chunk T) = false := by
  simp only [Chunk.is_full, Chunk.len, List.length_nil, beq_eq_false_iff_ne, ne_eq]
  omega

theorem chunk_push_back_empty {T : Type} {N : Nat} (hN : 1 ≤ N) (v : T) :
    (Chunk.push_back N v (⟨[]⟩ : Chunk T)).2 = ⟨[v]⟩ := by
  simp [Chunk.push_back, chunk_is_full_empty hN]

/-- Explicit form of `push_back` on a state with no chunks. -/
theorem push_back_eq_nil {T : Type} {N : Nat} (hN : 1 ≤ N) (v : T) {s : ChunkList T}
    (hnil : s.chunks = []) :
    ChunkList.push_back N v s = ⟨[⟨[v]⟩], s.elements_count + 1⟩ := by
  rw [ChunkList.push_back, hnil]
  simp [chunk_is_full_empty hN, chunk_push_back_empty hN]

/-- Explicit form of `push_back` on a full back chunk. -/
theorem push_back_eq_full {T : Type} {N : Nat} (hN : 1 ≤ N) (v : T) {s : ChunkList T}
    {init : List (Chunk T)} {back : Chunk T} (hs : s.chunks = init ++ [back])
    (hfull : back.len = N) :
    ChunkList.push_back N v s = ⟨s.chunks ++ [⟨[v]⟩], s.elements_count + 1⟩ := by
  have hlast : s.chunks.getLast? = some back := by rw [hs]; exact List.getLast?_concat _
  rw [ChunkList.push_back, hlast]
  have hfullb : Chunk.is_full N back = true := by simp [Chunk.is_full, hfull]
  simp [hfullb, chunk_push_back_empty hN]

/-- Explicit form of `push_back` on a non-full back chunk. -/
theorem push_back_eq_notfull {T : Type} {N : Nat} (v : T) {s : ChunkList T}
    {init : List (Chunk T)} {back : Chunk T} (hs : s.chunks = init ++ [back])
    (hfull : back.len ≠ N) :
    ChunkList.push_back N v s = ⟨init ++ [⟨back.elements ++ [v]⟩], s.elements_count + 1⟩ := by
  have hlast : s.chunks.getLast? = some back := by rw [hs]; exact List.getLast?_concat _
  rw [ChunkList.push_back, hlast]
  have hfullb : Chunk.is_full N back = false := by
    simp only [Chunk.is_full, beq_eq_false_iff_ne, ne_eq]
    exact hfull
  have hdrop : s.chunks.dropLast = init := by rw [hs]; exact List.dropLast_concat ..
  simp [hfullb, Chunk.push_back, hdrop]

theorem inv_push_back {T : Type} {N : Nat} (hN : 1 ≤ N) {s : ChunkList T} (h : CLinv N s)
    (v : T) : CLinv N (ChunkList.push_back N v s) := by
  obtain ⟨hwf, hcnt⟩ := h
  obtain hnil | ⟨init, back, hs⟩ := s.chunks.eq_nil_or_concat
  · rw [push_back_eq_nil hN v hnil]
    refine ⟨?_, ?_⟩
    · intro c hc
      simp only [List.mem_singleton] at hc
      subst hc
      exact ⟨by simp [Chunk.len], by simpa [Chunk.len] using hN⟩
    · have h1 : sumLens [(⟨[v]⟩ : Chunk T)] = 1 := by simp [sumLens, Chunk.len]
      simp only [h1]
      omega
  · simp only [List.concat_eq_append] at hs
    have hbmem : back ∈ s.chunks := by rw [hs]; simp
    have hble : back.len ≤ N := (hwf back hbmem).2
    by_cases hfull : back.len = N
    · rw [push_back_eq_full hN v hs hfull]
      refine ⟨?_, ?_⟩
      · intro c hc
        rcases List.mem_append.mp hc with hc | hc
        · exact hwf c hc
        · simp only [List.mem_singleton] at hc
          subst hc
          exact ⟨by simp [Chunk.len], by simpa [Chunk.len] using hN⟩
      · have h1 : sumLens (s.chunks ++ [(⟨[v]⟩ : Chunk T)]) = sumLens s.chunks + 1 := by
          rw [sumLens_concat]; simp [Chunk.len]
        simp only [h1]
        omega
    · rw [push_back_eq_notfull v hs hfull]
      refine ⟨?_, ?_⟩
      · intro c hc
        rcases List.mem_append.mp hc with hc | hc
        · exact hwf c (by rw [hs]; exact List.mem_append_left _ hc)
        · simp only [List.mem_singleton] at hc
          subst hc
          refine ⟨by simp [Chunk.len], ?_⟩
          simp only [Chunk.len, List.length_append, List.length_singleton]
          simp only [Chunk.len] at hble hfull
          omega
      · have h1 : sumLens (init ++ [(⟨back.elements ++ [v]⟩ : Chunk T)])
            = sumLens init + back.elements.length + 1 := by
          rw [sumLens_concat]; simp [Chunk.len]; omega
        have h2 : sumLens s.chunks = sumLens init + back.elements.length := by
          rw [hs, sumLens_concat]; simp [Chunk.len]
        simp only [h1]
        omega

theorem chunk_push_front_empty {T : Type} {N : Nat} (hN : 1 ≤ N) (v : T) :
    (Chunk.push_front N v (⟨[]⟩ : Chunk T)).2 = ⟨[v]⟩ := by
  simp [Chunk.push_front, chunk_is_full_empty hN]
  exact rotateRight1_concat [] v

/-- Explicit form of `push_front` on a state with no chunks. -/
theorem push_front_eq_nil {T : Type} {N : Nat} (hN : 1 ≤ N) (v : T) {s : ChunkList T}
    (hnil : s.chunks = []) :
    ChunkList.push_front N v s = ⟨[⟨[v]⟩], s.elements_count + 1⟩ := by
  rw [ChunkList.push_front, hnil]
  simp [chunk_push_front_empty hN]

/-- Explicit form of `push_front` on a full front chunk. -/
theorem push_front_eq_full {T : Type} {N : Nat} (hN : 1 ≤ N) (v : T) {s : ChunkList T}
    {front : Chunk T} {rest : List (Chunk T)} (hs : s.chunks = front :: rest)
    (hfull : front.len = N) :
    ChunkList.push_front N v s = ⟨⟨[v]⟩ :: front :: rest, s.elements_count + 1⟩ := by
  rw [ChunkList.push_front, hs]
  have hfullb : Chunk.is_full N front = true := by simp [Chunk.is_full, hfull]
  simp [hfullb, chunk_push_front_empty hN]

/-- Explicit form of `push_front` on a non-full front chunk. -/
theorem push_front_eq_notfull {T : Type} {N : Nat} (v : T) {s : ChunkList T}
    {front : Chunk T} {rest : List (Chunk T)} (hs : s.chunks = front :: rest)
    (hfull : front.len ≠ N) :
    ChunkList.push_front N v s = ⟨⟨v :: front.elements⟩ :: rest, s.elements_count + 1⟩ := by
  rw [ChunkList.push_front, hs]
  have hfullb : Chunk.is_full N front = false := by
    simp only [Chunk.is_full, beq_eq_false_iff_ne, ne_eq]
    exact hfull
  simp [hfullb, Chunk.push_front, rotateRight1_concat]

theorem inv_push_front {T : Type} {N : Nat} (hN : 1 ≤ N) {s : ChunkList T} (h : CLinv N s)
    (v : T) : CLinv N (ChunkList.push_front N v s) := by
  obtain ⟨hwf, hcnt⟩ := h
  cases hs : s.chunks with
  | nil =>
    rw [push_front_eq_nil hN v hs]
    refine ⟨?_, ?_⟩
    · intro c hc
      simp only [List.mem_singleton] at hc
      subst hc
      exact ⟨by simp [Chunk.len], by simpa [Chunk.len] using hN⟩
    · have h1 : sumLens [(⟨[v]⟩ : Chunk T)] = 1 := by simp [sumLens, Chunk.len]
      simp only [h1]
      omega
  | cons front rest =>
    have hfmem : front ∈ s.chunks := by rw [hs]; simp
    have hfle : front.len ≤ N := (hwf front hfmem).2
    by_cases hfull : front.len = N
    · rw [push_front_eq_full hN v hs hfull]
      refine ⟨?_, ?_⟩
      · intro c hc
        rcases List.mem_cons.mp hc with hc | hc
        · subst hc
          exact ⟨by simp [Chunk.len], by simpa [Chunk.len] using hN⟩
        · exact hwf c (by rw [hs]; exact hc)
      · rw [sumLens_cons]
        have h1 : (⟨[v]⟩ : Chunk T).len = 1 := by simp [Chunk.len]
        have h2 : sumLens s.chunks = sumLens (front :: rest) := by rw [hs]
        simp only [h1]
        omega
    · rw [push_front_eq_notfull v hs hfull]
      refine ⟨?_, ?_⟩
      · intro c hc
        rcases List.mem_cons.mp hc with hc | hc
        · subst hc
          refine ⟨by simp [Chunk.len], ?_⟩
          simp only [Chunk.len, List.length_cons]
          simp only [Chunk.len] at hfle hfull
          omega
        · exact hwf c (by rw [hs]; exact List.mem_cons_of_mem _ hc)
      · rw [sumLens_cons]
        have h1 : (⟨v :: front.elements⟩ : Chunk T).len = front.len + 1 := by
          simp [Chunk.len]
        have h2 : sumLens s.chunks = front.len + sumLens rest := by rw [hs, sumLens_cons]
        simp only [h1]
        omega

/-- `pop_back` with no chunks reports "no element" and leaves the state
unchanged. -/
theorem pop_back_eq_nil {T : Type} {s : ChunkList T} (hnil : s.chunks = []) :
    ChunkList.pop_back s = some (none, s) := by
  rw [ChunkList.pop_back, hnil]
  rfl

/-- `pop_back` on a (contract-violating) empty back chunk is a fatal fault:
the `unwrap` in the source fails. -/
theorem pop_back_eq_emptyback {T : Type} {s : ChunkList T} {l : List (Chunk T)}
    {back : Chunk T} (hs : s.chunks = l ++ [back]) (hel : back.elements = []) :
    ChunkList.pop_back s = none := by
  have hlast : s.chunks.getLast? = some back := by rw [hs]; exact List.getLast?_concat _
  have hpop : Chunk.pop_back back = (none, back) := by
    rw [Chunk.pop_back, hel]
    rfl
  simp only [ChunkList.pop_back, hlast, hpop]

/-- Explicit form of `pop_back` on a non-empty back chunk with a positive
cached count. -/
theorem pop_back_eq_concat {T : Type} {s : ChunkList T} {l : List (Chunk T)}
    {back : Chunk T} (hs : s.chunks = l ++ [back]) {el : List T} {w : T}
    (hel : back.elements = el ++ [w]) (hc : 1 ≤ s.elements_count) :
    ChunkList.pop_back s
      = some (some w,
          ⟨if el.length = 0 then l else l ++ [⟨el⟩], s.elements_count - 1⟩) := by
  have hlast : s.chunks.getLast? = some back := by rw [hs]; exact List.getLast?_concat _
  have hpop : Chunk.pop_back back = (some w, ⟨el⟩) := by
    rw [Chunk.pop_back, hel]
    simp [List.getLast?_concat, List.dropLast_concat]
  have hdrop : s.chunks.dropLast = l := by rw [hs]; exact List.dropLast_concat ..
  have hcs : csub s.elements_count 1 = some (s.elements_count - 1) := by
    simp [csub, hc]
  simp only [ChunkList.pop_back, hlast, hpop, hdrop, hcs, Chunk.len]
  by_cases h0 : el.length = 0
  · simp [h0, List.dropLast_concat]
  · simp [h0]

/-- `pop_back` never faults on a state satisfying the aggregate invariant. -/
theorem pop_back_no_fault {T : Type} {N : Nat} {s : ChunkList T} (h : CLinv N s) :
    ChunkList.pop_back s ≠ none := by
  obtain ⟨hwf, hcnt⟩ := h
  obtain hnil | ⟨init, back, hs⟩ := s.chunks.eq_nil_or_concat
  · rw [pop_back_eq_nil hnil]; simp
  · simp only [List.concat_eq_append] at hs
    have hbmem : back ∈ s.chunks := by rw [hs]; simp
    have hb1 : 1 ≤ back.len := (hwf back hbmem).1
    obtain helnil | ⟨el, w, hel⟩ := back.elements.eq_nil_or_concat
    · exfalso
      simp only [Chunk.len, helnil, List.length_nil] at hb1
      omega
    · simp only [List.concat_eq_append] at hel
      have hsum : sumLens s.chunks = sumLens init + back.len := by
        rw [hs, sumLens_concat]
      have hc : 1 ≤ s.elements_count := by omega
      rw [pop_back_eq_concat hs hel hc]
      simp

theorem inv_pop_back {T : Type} {N : Nat} {s s2 : ChunkList T} {v : Option T}
    (h : CLinv N s) (hp : ChunkList.pop_back s = some (v, s2)) : CLinv N s2 := by
  obtain ⟨hwf, hcnt⟩ := h
  obtain hnil | ⟨init, back, hs⟩ := s.chunks.eq_nil_or_concat
  · rw [pop_back_eq_nil hnil] at hp
    obtain ⟨rfl, rfl⟩ : none = v ∧ s = s2 := by
      have := Option.some.inj hp
      exact ⟨congrArg Prod.fst this, congrArg Prod.snd this⟩
    exact ⟨hwf, hcnt⟩
  · simp only [List.concat_eq_append] at hs
    have hbmem : back ∈ s.chunks := by rw [hs]; simp
    have hb1 : 1 ≤ back.len := (hwf back hbmem).1
    have hbN : back.len ≤ N := (hwf back hbmem).2
    obtain helnil | ⟨el, w, hel⟩ := back.elements.eq_nil_or_concat
    · rw [pop_back_eq_emptyback hs helnil] at hp
      cases hp
    · simp only [List.concat_eq_append] at hel
      have hsum : sumLens s.chunks = sumLens init + back.len := by
        rw [hs, sumLens_concat]
      have hlen : back.len = el.length + 1 := by
        simp [Chunk.len, hel]
      have hc : 1 ≤ s.elements_count := by omega
      rw [pop_back_eq_concat hs hel hc] at hp
      have hs2 : s2 = ⟨if el.length = 0 then init else init ++ [⟨el⟩],
          s.elements_count - 1⟩ := by
        have := Option.some.inj hp
        exact (congrArg Prod.snd this).symm
      subst hs2
      by_cases h0 : el.length = 0
      · rw [if_pos h0]
      -- the wf and sum goals, split on the erased-vs-kept back chunk
        refine ⟨?_, ?_⟩
        · intro c hc2
          exact hwf c (by rw [hs]; exact List.mem_append_left _ hc2)
        · simp only at hsum ⊢
          omega
      · rw [if_neg h0]
        refine ⟨?_, ?_⟩
        · intro c hc2
          rcases List.mem_append.mp hc2 with hc2 | hc2
          · exact hwf c (by rw [hs]; exact List.mem_append_left _ hc2)
          · simp only [List.mem_singleton] at hc2
            subst hc2
            refine ⟨?_, ?_⟩
            · simp only [Chunk.len]
              omega
            · simp only [Chunk.len]
              omega
        · have hsum2 : sumLens (init ++ [(⟨el⟩ : Chunk T)]) = sumLens init + el.length := by
            rw [sumLens_concat]; simp [Chunk.len]
          simp only [hsum2]
          omega

/-- `remove` on a state with no chunks reports "no element" and leaves the
state unchanged (the `?` on `get_mut` returns early). -/
theorem remove_eq_nil {T : Type} (N i : Nat) {s : ChunkList T} (hnil : s.chunks = []) :
    ChunkList.remove N i s = some (none, s) := by
  rw [ChunkList.remove, hnil]
  rfl

/-- Explicit form of `remove(0)` on a leading non-empty chunk with a
positive cached count: the scan stops immediately with running total `0`,
the offset `0 - 0 = 0` is correct, and the head element is removed. -/
theorem remove_zero_eq_cons {T : Type} {N : Nat} (hN : 1 ≤ N) {s : ChunkList T}
    {c : Chunk T} {rest : List (Chunk T)} (hs : s.chunks = c :: rest)
    {e : T} {es : List T} (hel : c.elements = e :: es) (hc : 1 ≤ s.elements_count) :
    ChunkList.remove N 0 s
      = some (some e,
          ⟨if es.length = 0 then rest else ⟨es⟩ :: rest, s.elements_count - 1⟩) := by
  have hcrem : Chunk.remove N 0 c = some (some e, ⟨es⟩) := by
    rw [Chunk.remove]
    have h1 : ¬ N ≤ 0 := by omega
    have h2 : ¬ c.len ≤ 0 := by simp [Chunk.len, hel]
    rw [if_neg h1, if_neg h2, hel]
    simp
  have hcs : csub s.elements_count 1 = some (s.elements_count - 1) := by
    simp [csub, hc]
  rw [ChunkList.remove]
  simp only [hs, removeScan_zero, List.getElem?_cons_zero,
    show csub 0 0 = some 0 from rfl, hcrem, hcs, Chunk.len, List.set_cons_zero]
  by_cases h0 : es.length = 0
  · simp [h0, List.eraseIdx]
  · simp [h0]

/-- For a positive target index, `remove` either faults (reversed-offset
underflow) or returns early with "no element" and an unchanged state. -/
theorem remove_pos_eq {T : Type} (N : Nat) {i : Nat} (hi : 1 ≤ i) (s : ChunkList T) :
    ChunkList.remove N i s = none ∨ ChunkList.remove N i s = some (none, s) := by
  rw [ChunkList.remove]
  cases hget : s.chunks[(ChunkList.removeScan i s.chunks 0 0).1]? with
  | none => right; rfl
  | some chunk =>
    left
    have hlt : (ChunkList.removeScan i s.chunks 0 0).2 < i :=
      removeScan_lt i s.chunks 0 0 (by omega)
    have hcs : csub (ChunkList.removeScan i s.chunks 0 0).2 i = none := by
      simp only [csub, if_neg (by omega : ¬ i ≤ (ChunkList.removeScan i s.chunks 0 0).2)]
    simp only [hcs]

/-- Whenever `remove` completes with "no element" on an invariant-satisfying
state, it took the early return and changed nothing. -/
theorem remove_none_unchanged {T : Type} {N : Nat} (hN : 1 ≤ N) {s s2 : ChunkList T}
    {i : Nat} (h : CLinv N s) (hr : ChunkList.remove N i s = some (none, s2)) : s2 = s := by
  obtain ⟨hwf, hcnt⟩ := h
  cases i with
  | zero =>
    cases hs : s.chunks with
    | nil =>
      rw [remove_eq_nil N 0 hs] at hr
      exact (congrArg Prod.snd (Option.some.inj hr)).symm
    | cons c rest =>
      have hcmem : c ∈ s.chunks := by rw [hs]; simp
      have hc1 : 1 ≤ c.len := (hwf c hcmem).1
      obtain ⟨e, es, hel⟩ : ∃ e es, c.elements = e :: es := by
        cases hv : c.elements with
        | nil => exfalso; simp [Chunk.len, hv] at hc1
        | cons e es => exact ⟨e, es, rfl⟩
      have hcount : 1 ≤ s.elements_count := by
        have : sumLens s.chunks = c.len + sumLens rest := by rw [hs, sumLens_cons]
        omega
      rw [remove_zero_eq_cons hN hs hel hcount] at hr
      exact absurd (congrArg Prod.fst (Option.some.inj hr)) (by simp)
  | succ m =>
    rcases remove_pos_eq N (by omega : 1 ≤ m + 1) s with hcase | hcase
    · rw [hcase] at hr; cases hr
    · rw [hcase] at hr
      exact (congrArg Prod.snd (Option.some.inj hr)).symm

theorem inv_remove {T : Type} {N : Nat} (hN : 1 ≤ N) {s s2 : ChunkList T} {i : Nat}
    {v : Option T} (h : CLinv N s) (hr : ChunkList.remove N i s = some (v, s2)) :
    CLinv N s2 := by
  obtain ⟨hwf, hcnt⟩ := h
  cases i with
  | zero =>
    cases hs : s.chunks with
    | nil =>
      rw [remove_eq_nil N 0 hs] at hr
      injection hr with h
      injection h with h1 h2
      subst h2
      exact ⟨hwf, hcnt⟩
    | cons c rest =>
      have hcmem : c ∈ s.chunks := by rw [hs]; simp
      have hc1 : 1 ≤ c.len := (hwf c hcmem).1
      have hcN : c.len ≤ N := (hwf c hcmem).2
      obtain ⟨e, es, hel⟩ : ∃ e es, c.elements = e :: es := by
        cases hv : c.elements with
        | nil => exfalso; simp [Chunk.len, hv] at hc1
        | cons e es => exact ⟨e, es, rfl⟩
      have hclen : c.len = es.length + 1 := by simp [Chunk.len, hel]
      have hsum : sumLens s.chunks = c.len + sumLens rest := by rw [hs, sumLens_cons]
      have hcount : 1 ≤ s.elements_count := by omega
      rw [remove_zero_eq_cons hN hs hel hcount] at hr
      injection hr with h
      injection h with h1 h2
      subst h2
      by_cases h0 : es.length = 0
      · rw [if_pos h0]
        refine ⟨?_, ?_⟩
        · intro d hd
          exact hwf d (by rw [hs]; exact List.mem_cons_of_mem _ hd)
        · simp only
          omega
      · rw [if_neg h0]
        refine ⟨?_, ?_⟩
        · intro d hd
          rcases List.mem_cons.mp hd with hd | hd
          · subst hd
            constructor
            · simp only [Chunk.len]; omega
            · simp only [Chunk.len]; omega
          · exact hwf d (by rw [hs]; exact List.mem_cons_of_mem _ hd)
        · have : sumLens ((⟨es⟩ : Chunk T) :: rest) = es.length + sumLens rest := by
            rw [sumLens_cons]; simp [Chunk.len]
          simp only [this]
          omega
  | succ m =>
    rcases remove_pos_eq N (by omega : 1 ≤ m + 1) s with hcase | hcase
    · rw [hcase] at hr; cases hr
    · rw [hcase] at hr
      injection hr with h
      injection h with h1 h2
      subst h2
      exact ⟨hwf, hcnt⟩

/-- Every state reachable from a successful `new()` through completed
public operations satisfies the aggregate invariant (and witnesses that
the capacity was validated to be at least 1). -/
theorem reachable_inv {T : Type} {N : Nat} {s : ChunkList T} (h : Reachable N s) :
    1 ≤ N ∧ CLinv N s := by
  induction h with
  | init hN => exact ⟨hN, inv_empty N⟩
  | push_back v _ ih => exact ⟨ih.1, inv_push_back ih.1 ih.2 v⟩
  | push_front v _ ih => exact ⟨ih.1, inv_push_front ih.1 ih.2 v⟩
  | pop_back _ hp ih => exact ⟨ih.1, inv_pop_back ih.2 hp⟩
  | rm i _ hr ih => exact ⟨ih.1, inv_remove ih.1 ih.2 hr⟩
  | clear _ ih =>
    refine ⟨ih.1, ?_, ?_⟩
    · intro c hc
      simp [ChunkList.clear] at hc
    · simp [ChunkList.clear, sumLens_nil]

theorem getLast?_mem {T : Type} {l : List T} {a : T} (h : l.getLast? = some a) : a ∈ l := by
  obtain hnil | ⟨init, b, hs⟩ := l.eq_nil_or_concat
  · subst hnil; cases h
  · simp only [List.concat_eq_append] at hs
    subst hs
    rw [List.getLast?_concat] at h
    simp [Option.some.inj h]

/-- C4: confirmed.  After every completed public operation — that is, in
every state reachable from `new()` — no chunk in the sequence is empty:
every chunk present holds between 1 and `N` elements. -/
theorem reachable_chunks_wf {T : Type} {N : Nat} {s : ChunkList T} (h : Reachable N s) :
    ∀ c ∈ s.chunks, 1 ≤ c.len ∧ c.len ≤ N :=
  (reachable_inv h).2.1

theorem reachable_chunks_wf_witness :
    1 ≤ (⟨[5]⟩ : Chunk Nat).len ∧ (⟨[5]⟩ : Chunk Nat).len ≤ 2 :=
  reachable_chunks_wf (Reachable.push_back 5 (Reachable.init (by decide))) ⟨[5]⟩ (by decide)

/-- C6: confirmed.  On every reachable deque, whenever `remove(i)`
completes reporting "no element", both the cached element count and the
chunk sequence are unchanged (the only non-faulting "no element" path is
the early return before the decrement). -/
theorem remove_no_element_unchanged {T : Type} {N i : Nat} {s s2 : ChunkList T}
    (h : Reachable N s) (hr : ChunkList.remove N i s = some (none, s2)) :
    s2.elements_count = s.elements_count ∧ s2.chunks = s.chunks := by
  obtain ⟨hN, hinv⟩ := reachable_inv h
  have h2 := remove_none_unchanged hN hinv hr
  subst h2
  exact ⟨rfl, rfl⟩

theorem remove_no_element_unchanged_witness :
    (ChunkList.push_back 2 7 (ChunkList.empty Nat)).elements_count
        = (ChunkList.push_back 2 7 (ChunkList.empty Nat)).elements_count
      ∧ (ChunkList.push_back 2 7 (ChunkList.empty Nat)).chunks
        = (ChunkList.push_back 2 7 (ChunkList.empty Nat)).chunks :=
  remove_no_element_unchanged (N := 2) (i := 5)
    (Reachable.push_back 7 (Reachable.init (by decide))) (by decide)

/-- C10: confirmed.  On every reachable deque the back chunk, when one
exists, is non-empty, and consequently `pop_back` (whose source `unwrap`s
the popped value and decrements the count) never raises a fatal fault. -/
theorem pop_back_never_faults {T : Type} {N : Nat} {s : ChunkList T} (h : Reachable N s) :
    (∀ back, s.chunks.getLast? = some back → 1 ≤ back.len)
      ∧ ChunkList.pop_back s ≠ none := by
  obtain ⟨hN, hinv⟩ := reachable_inv h
  refine ⟨?_, pop_back_no_fault hinv⟩
  intro back hb
  exact (hinv.1 back (getLast?_mem hb)).1

theorem pop_back_never_faults_witness :
    ChunkList.pop_back (ChunkList.push_back 2 9 (ChunkList.empty Nat)) ≠ none :=
  (pop_back_never_faults (Reachable.push_back 9 (Reachable.init (by decide)))).2

/-- `pop_front` exactly undoes `push_front` on any well-formed state. -/
theorem pop_push_front {T : Type} {N : Nat} (hN : 1 ≤ N) {s : ChunkList T}
    (hwf : WFchunks N s.chunks) (v : T) :
    ChunkList.remove N 0 (ChunkList.push_front N v s) = some (some v, s) := by
  obtain ⟨cs, cnt⟩ := s
  cases cs with
  | nil =>
    rw [push_front_eq_nil hN v (s := ⟨[], cnt⟩) rfl]
    rw [remove_zero_eq_cons hN (s := ⟨[⟨[v]⟩], cnt + 1⟩) rfl rfl
      (by show 1 ≤ cnt + 1; omega)]
    simp
  | cons front rest =>
    have hf1 : 1 ≤ front.len := (hwf front (by show front ∈ front :: rest; simp)).1
    by_cases hfull : front.len = N
    · rw [push_front_eq_full hN v (s := ⟨front :: rest, cnt⟩) rfl hfull]
      rw [remove_zero_eq_cons hN (s := ⟨⟨[v]⟩ :: front :: rest, cnt + 1⟩) rfl rfl
        (by show 1 ≤ cnt + 1; omega)]
      simp
    · rw [push_front_eq_notfull v (s := ⟨front :: rest, cnt⟩) rfl hfull]
      rw [remove_zero_eq_cons hN (s := ⟨⟨v :: front.elements⟩ :: rest, cnt + 1⟩) rfl rfl
        (by show 1 ≤ cnt + 1; omega)]
      have hne : ¬ front.elements.length = 0 := by
        have h2 : 1 ≤ front.elements.length := hf1
        omega
      simp [hne]

/-- `pop_back` exactly undoes `push_back` on any well-formed state. -/
theorem pop_push_back {T : Type} {N : Nat} (hN : 1 ≤ N) {s : ChunkList T}
    (hwf : WFchunks N s.chunks) (v : T) :
    ChunkList.pop_back (ChunkList.push_back N v s) = some (some v, s) := by
  obtain ⟨cs, cnt⟩ := s
  obtain hnil | ⟨init, back, hs⟩ := cs.eq_nil_or_concat
  · subst hnil
    rw [push_back_eq_nil hN v (s := ⟨[], cnt⟩) rfl]
    rw [pop_back_eq_concat (s := ⟨[⟨[v]⟩], cnt + 1⟩) (l := []) rfl
      (show (⟨[v]⟩ : Chunk T).elements = [] ++ [v] from rfl)
      (by show 1 ≤ cnt + 1; omega)]
    simp
  · simp only [List.concat_eq_append] at hs
    subst hs
    have hb1 : 1 ≤ back.len :=
      (hwf back (by show back ∈ init ++ [back]; simp)).1
    by_cases hfull : back.len = N
    · rw [push_back_eq_full hN v (s := ⟨init ++ [back], cnt⟩) rfl hfull]
      rw [pop_back_eq_concat (s := ⟨(init ++ [back]) ++ [⟨[v]⟩], cnt + 1⟩)
        (l := init ++ [back]) rfl
        (show (⟨[v]⟩ : Chunk T).elements = [] ++ [v] from rfl)
        (by show 1 ≤ cnt + 1; omega)]
      simp
    · rw [push_back_eq_notfull v (s := ⟨init ++ [back], cnt⟩) rfl hfull]
      rw [pop_back_eq_concat (s := ⟨init ++ [⟨back.elements ++ [v]⟩], cnt + 1⟩)
        (l := init) rfl
        (show (⟨back.elements ++ [v]⟩ : Chunk T).elements = back.elements ++ [v] from rfl)
        (by show 1 ≤ cnt + 1; omega)]
      have hne : ¬ back.elements.length = 0 := by
        have h2 : 1 ≤ back.elements.length := hb1
        omega
      simp [hne]

theorem popFrontMany_pushFrontAll {T : Type} {N : Nat} (hN : 1 ≤ N) (vs : List T) :
    ∀ s : ChunkList T, CLinv N s →
      popFrontMany N vs.length (pushFrontAll N vs s) = some (vs.reverse.map some, s) := by
  induction vs with
  | nil => intro s hs; rfl
  | cons v rest ih =>
    intro s hs
    show popFrontMany N (rest.length + 1) (pushFrontAll N rest (ChunkList.push_front N v s))
      = _
    rw [popFrontMany, ih (ChunkList.push_front N v s) (inv_push_front hN hs v)]
    have hp : ChunkList.pop_front N (ChunkList.push_front N v s) = some (some v, s) :=
      pop_push_front hN hs.1 v
    simp [hp]

theorem popBackMany_pushBackAll {T : Type} {N : Nat} (hN : 1 ≤ N) (vs : List T) :
    ∀ s : ChunkList T, CLinv N s →
      popBackMany vs.length (pushBackAll N vs s) = some (vs.reverse.map some, s) := by
  induction vs with
  | nil => intro s hs; rfl
  | cons v rest ih =>
    intro s hs
    show popBackMany (rest.length + 1) (pushBackAll N rest (ChunkList.push_back N v s))
      = _
    rw [popBackMany, ih (ChunkList.push_back N v s) (inv_push_back hN hs v)]
    have hp : ChunkList.pop_back (ChunkList.push_back N v s) = some (some v, s) :=
      pop_push_back hN hs.1 v
    simp [hp]

/-- C8: confirmed.  For every capacity `N ≥ 1` and every value sequence
`v1..vn`, pushing with `push_front` and then popping with `pop_front`
yields the values reversed (`vn..v1`), and pushing with `push_back` then
popping with `pop_back` does likewise; in both cases one further pop at
the drained end reports "no element", and the deque is back to the empty
state. -/
theorem push_pop_round_trip {T : Type} (N : Nat) (hN : 1 ≤ N) (vs : List T) :
    popFrontMany N (vs.length + 1) (pushFrontAll N vs (ChunkList.empty T))
        = some (vs.reverse.map some ++ [none], ChunkList.empty T)
      ∧ popBackMany (vs.length + 1) (pushBackAll N vs (ChunkList.empty T))
        = some (vs.reverse.map some ++ [none], ChunkList.empty T) := by
  constructor
  · rw [popFrontMany, popFrontMany_pushFrontAll hN vs _ (inv_empty N)]
    have hp : ChunkList.pop_front N (ChunkList.empty T)
        = some (none, ChunkList.empty T) := remove_eq_nil N 0 rfl
    simp [hp]
  · rw [popBackMany, popBackMany_pushBackAll hN vs _ (inv_empty N)]
    have hp : ChunkList.pop_back (ChunkList.empty T)
        = some (none, ChunkList.empty T) := pop_back_eq_nil rfl
    simp [hp]

theorem push_pop_round_trip_witness :
    popFrontMany 2 4 (pushFrontAll 2 [1, 2, 3] (ChunkList.empty Nat))
        = some ([some 3, some 2, some 1, none], ChunkList.empty Nat)
      ∧ popBackMany 4 (pushBackAll 2 [1, 2, 3] (ChunkList.empty Nat))
        = some ([some 3, some 2, some 1, none], ChunkList.empty Nat) :=
  push_pop_round_trip 2 (by decide) [1, 2, 3]

/-- `Iter::next` past the last chunk: "no element", state unchanged. -/
theorem iterNext_end {T : Type} (N : Nat) {chunks : List (Chunk T)} {ci : Nat} (ei : Nat)
    (hd : chunks.drop ci = []) : iterNext N chunks ci ei = some (none, ci, ei) := by
  rw [iterNext, hd, iterNextAux]

/-- `Iter::next` inside a chunk: with `element_i` in range (and the chunk
within capacity) the element is yielded and the state advances, moving to
the next chunk exactly at the chunk's end. -/
theorem iterNext_step {T : Type} {N : Nat} {chunks : List (Chunk T)} {ci ei : Nat}
    {c : Chunk T} {rest : List (Chunk T)} (hd : chunks.drop ci = c :: rest)
    (hei : ei < c.len) (hcN : c.len ≤ N) :
    iterNext N chunks ci ei
      = some (c.elements[ei]?, if c.len ≤ ei + 1 then (ci + 1, 0) else (ci, ei + 1)) := by
  rw [iterNext, hd]
  have hN2 : ¬ N ≤ ei := by omega
  obtain ⟨e, he⟩ : ∃ e, c.elements[ei]? = some e := by
    have hlt : ei < c.elements.length := hei
    exact ⟨c.elements[ei], List.getElem?_eq_getElem hlt⟩
  have hget : Chunk.get N ei c = some (some e) := by rw [Chunk.get, if_neg hN2, he]
  simp only [iterNextAux, hget, he]
  by_cases hlt : c.len ≤ ei + 1
  · simp [hlt]
  · simp [hlt]

/-- `nth` past the last chunk always reports "no element". -/
theorem iterNth_end {T : Type} (N : Nat) {chunks : List (Chunk T)} {ci : Nat} (ei : Nat)
    (hd : chunks.drop ci = []) (n : Nat) : iterNth N chunks ci ei n = some none := by
  cases n with
  | zero => rw [iterNth, iterNext_end N ei hd]
  | succ m => rw [iterNth, iterNext_end N ei hd]

/-- The heart of the iterator proof: from a valid in-chunk state, the
`n`-th value the borrowing iterator yields is the `n`-th element of the
remaining flattened sequence. -/
theorem iterNth_step {T : Type} {N : Nat} {chunks : List (Chunk T)}
    (hwf : WFchunks N chunks) :
    ∀ n ci ei (c : Chunk T) rest, chunks.drop ci = c :: rest → ei < c.len →
      iterNth N chunks ci ei n = some ((c.elements.drop ei ++ flatElems rest)[n]?) := by
  intro n
  induction n with
  | zero =>
    intro ci ei c rest hd hei
    have hcm : c ∈ chunks := List.drop_subset ci chunks (hd ▸ List.mem_cons_self c rest)
    have hcN : c.len ≤ N := (hwf c hcm).2
    obtain ⟨e, he⟩ : ∃ e, c.elements[ei]? = some e := by
      have hlt : ei < c.elements.length := hei
      exact ⟨c.elements[ei], List.getElem?_eq_getElem hlt⟩
    rw [iterNth, iterNext_step hd hei hcN, he]
    have hdroplen : 0 < (c.elements.drop ei).length := by
      have hlt : ei < c.elements.length := hei
      simp [List.length_drop]
      omega
    have h1 : (c.elements.drop ei ++ flatElems rest)[0]?
        = (c.elements.drop ei)[0]? := List.getElem?_append_left hdroplen
    have h2 : (c.elements.drop ei)[0]? = c.elements[ei]? := by
      rw [List.getElem?_drop]
      simp
    rw [h1, h2, he]
  | succ m ih =>
    intro ci ei c rest hd hei
    have hcm : c ∈ chunks := List.drop_subset ci chunks (hd ▸ List.mem_cons_self c rest)
    have hcN : c.len ≤ N := (hwf c hcm).2
    obtain ⟨e, he⟩ : ∃ e, c.elements[ei]? = some e := by
      have hlt : ei < c.elements.length := hei
      exact ⟨c.elements[ei], List.getElem?_eq_getElem hlt⟩
    have hlt : ei < c.elements.length := hei
    have heget : c.elements[ei] = e := (List.getElem?_eq_some.mp he).2
    have hdcons : c.elements.drop ei = e :: c.elements.drop (ei + 1) := by
      rw [List.drop_eq_getElem_cons hlt, heget]
    rw [iterNth, iterNext_step hd hei hcN, he]
    by_cases hend : c.len ≤ ei + 1
    · rw [if_pos hend]
      have hdone : c.elements.drop (ei + 1) = [] :=
        List.drop_eq_nil_of_le (by exact hend)
      have hd2 : chunks.drop (ci + 1) = rest := by
        rw [← List.drop_drop, hd]
        rfl
      have hrhs : (c.elements.drop ei ++ flatElems rest)[m + 1]?
          = (flatElems rest)[m]? := by
        rw [hdcons, hdone]
        simp
      rw [hrhs]
      cases rest with
      | nil =>
        show iterNth N chunks (ci + 1) 0 m = some ((flatElems ([] : List (Chunk T)))[m]?)
        rw [iterNth_end N 0 hd2]
        simp [flatElems]
      | cons c2 rest2 =>
        have hc2m : c2 ∈ chunks := by
          refine List.drop_subset (ci + 1) chunks ?_
          rw [hd2]
          simp
        have hc21 : 0 < c2.len := (hwf c2 hc2m).1
        show iterNth N chunks (ci + 1) 0 m = some ((flatElems (c2 :: rest2))[m]?)
        rw [ih (ci + 1) 0 c2 rest2 hd2 hc21]
        simp [flatElems]
    · rw [if_neg hend]
      have hrhs : (c.elements.drop ei ++ flatElems rest)[m + 1]?
          = (c.elements.drop (ei + 1) ++ flatElems rest)[m]? := by
        rw [hdcons]
        simp
      rw [hrhs]
      show iterNth N chunks ci (ei + 1) m
        = some ((c.elements.drop (ei + 1) ++ flatElems rest)[m]?)
      exact ih ci (ei + 1) c rest hd (by omega)

/-- The borrowing iterator, run from its initial state on a well-formed
chunk sequence, yields exactly the flattened contents. -/
theorem iterNth_flat_chunks {T : Type} {N : Nat} (cs : List (Chunk T))
    (hwf : WFchunks N cs) (n : Nat) :
    iterNth N cs 0 0 n = some ((flatElems cs)[n]?) := by
  cases cs with
  | nil =>
    rw [iterNth_end N 0 (show List.drop 0 ([] : List (Chunk T)) = [] from rfl)]
    simp [flatElems]
  | cons c rest =>
    have hc1 : 0 < c.len := (hwf c (by simp)).1
    rw [iterNth_step hwf n 0 0 c rest rfl hc1]
    rfl

/-- C9 (amended): confirmed for the stored contents.  On every deque whose
chunk sequence satisfies the structural invariant, borrowing iteration
yields exactly the flattened chunk contents, front to back, each element
once and in order, and never faults (never indexes a chunk at a position
`≥ N`); `get(i)` returns precisely the `i`-th value of that iteration for
every `i` below the number of stored elements, and "no element" beyond
it. -/
theorem iter_get_flat {T : Type} {N : Nat} {s : ChunkList T}
    (hwf : WFchunks N s.chunks) :
    (∀ n, iterNth N s.chunks 0 0 n = some ((flatElems s.chunks)[n]?))
      ∧ ∀ i, ChunkList.get N i s = some ((flatElems s.chunks)[i]?) := by
  have key : ∀ n, iterNth N s.chunks 0 0 n = some ((flatElems s.chunks)[n]?) :=
    fun n => iterNth_flat_chunks s.chunks hwf n
  exact ⟨key, fun i => key i⟩

theorem iter_get_flat_witness :
    ChunkList.get 2 1 (⟨[⟨[7]⟩, ⟨[8, 9]⟩], 3⟩ : ChunkList Nat)
      = some ((flatElems (⟨[⟨[7]⟩, ⟨[8, 9]⟩], 3⟩ : ChunkList Nat).chunks)[1]?) :=
  (iter_get_flat (by decide)).2 1
